import Mathlib

/-!
Verification development for the crusti_g2io generation engine.

The definitions below are a shallow embedding of the Rust sources:
`src/core/graph.rs`, `src/core/inner_outer_generator.rs`,
`src/core/parameters.rs`, `src/core/named_param.rs` and
`src/generators/chain_generator.rs`.  Machine integers (`usize`, `u64`)
are modelled as `Nat`; the graph container wraps a `petgraph` directed
graph, which we model as a node count (nodes are the dense range
`[0, nNodes)`) together with the list of raw edges in insertion order.
-/

namespace G2io

/-- Embedding of `Graph` (src/core/graph.rs): a `petgraph::Graph` with unit
node and edge weights.  `nNodes` is `node_count()`; `edges` is the list of
`(source, target)` index pairs of the raw edges, in edge-index
(= insertion) order. -/
structure Graph where
  nNodes : Nat
  edges : List (Nat × Nat)
deriving DecidableEq, Repr

/-- The `Default` instance of `Graph` is the empty petgraph graph. -/
instance : Inhabited Graph := ⟨⟨0, []⟩⟩

/-- Embedding of `InterGraphEdge` (src/core/graph.rs): an edge between the
nodes of two different graphs, given by its direction and the two node
labels. -/
inductive InterGraphEdge where
  | firstToSecond (a b : Nat)
  | secondToFirst (b a : Nat)
deriving DecidableEq, Repr

/-- `Graph::new_node`: `self.0.add_node(())` appends one node, so the node
count grows by one; the edge list is untouched. -/
def Graph.newNode (g : Graph) : Graph :=
  { g with nNodes := g.nNodes + 1 }

/-- `Graph::n_nodes` is `node_count()`, i.e. the `nNodes` field. -/
def Graph.nNodesFn (g : Graph) : Nat := g.nNodes

/-- `Graph::n_edges` is `edge_count()`, i.e. the length of the raw edge
list. -/
def Graph.nEdges (g : Graph) : Nat := g.edges.length

/-- `Graph::iter_edges`: maps every raw edge to its `(source, target)`
index pair, in edge-index order.  In this model the raw edges already are
those pairs. -/
def Graph.iterEdges (g : Graph) : List (Nat × Nat) := g.edges

/-- Embedding of `Graph::new_edge` (src/core/graph.rs lines 170-179).
The two `for_each` loops extend the node range to cover `from` and then
`to`; afterwards `petgraph::Graph::update_edge(from, to, ())` adds the
edge `(from, to)` if it is not present yet, and otherwise only updates
its (unit) weight, leaving the edge list unchanged. -/
def Graph.newEdge (g : Graph) (fr tg : Nat) : Graph :=
  { nNodes := max (max g.nNodes (fr + 1)) (tg + 1)
    edges := if (fr, tg) ∈ g.edges then g.edges else g.edges ++ [(fr, tg)] }

/-- Embedding of `Graph::append_graph` (src/core/graph.rs lines 205-219):
first `g.n_nodes()` fresh nodes are appended, then every raw edge of `g`
is re-inserted through `new_edge`, shifted by the old node count of
`self`. -/
def Graph.appendGraph (g : Graph) (h : Graph) : Graph :=
  let selfNNodes := g.nNodes
  let g1 : Graph := { g with nNodes := g.nNodes + h.nNodes }
  h.edges.foldl (fun acc e => acc.newEdge (e.1 + selfNNodes) (e.2 + selfNNodes)) g1

/-- Well-formedness invariant maintained by petgraph itself: every raw
edge references existing nodes, i.e. both endpoint indices are below the
node count. -/
def Graph.Wf (g : Graph) : Prop :=
  ∀ e ∈ g.edges, e.1 < g.nNodes ∧ e.2 < g.nNodes

instance (g : Graph) : Decidable g.Wf := by
  unfold Graph.Wf; infer_instance

/-! Basic lemmas about `newEdge` and `appendGraph`. -/

theorem Graph.newEdge_nNodes (g : Graph) (fr tg : Nat) :
    (g.newEdge fr tg).nNodes = max (max g.nNodes (fr + 1)) (tg + 1) := rfl

theorem Graph.newEdge_edges (g : Graph) (fr tg : Nat) :
    (g.newEdge fr tg).edges =
      if (fr, tg) ∈ g.edges then g.edges else g.edges ++ [(fr, tg)] := rfl

theorem Graph.newEdge_edges_mono (g : Graph) (fr tg : Nat) :
    g.edges ⊆ (g.newEdge fr tg).edges := by
  rw [Graph.newEdge_edges]
  split
  · exact fun _ h => h
  · exact fun x h => List.mem_append_left _ h

theorem Graph.newEdge_mem_self (g : Graph) (fr tg : Nat) :
    (fr, tg) ∈ (g.newEdge fr tg).edges := by
  rw [Graph.newEdge_edges]
  split
  · assumption
  · exact List.mem_append_right _ (List.mem_singleton.mpr rfl)

theorem Graph.newEdge_edges_extend (g : Graph) (fr tg : Nat) :
    ∃ t, (g.newEdge fr tg).edges = g.edges ++ t := by
  rw [Graph.newEdge_edges]
  split
  · exact ⟨[], by simp⟩
  · exact ⟨[(fr, tg)], rfl⟩

theorem Graph.newEdge_nNodes_of_lt (g : Graph) (fr tg : Nat)
    (hf : fr < g.nNodes) (ht : tg < g.nNodes) :
    (g.newEdge fr tg).nNodes = g.nNodes := by
  rw [Graph.newEdge_nNodes]
  omega

theorem Graph.nNodes_le_newEdge (g : Graph) (fr tg : Nat) :
    g.nNodes ≤ (g.newEdge fr tg).nNodes := by
  rw [Graph.newEdge_nNodes]; omega

theorem Graph.Wf.newEdge {g : Graph} (hg : g.Wf) (fr tg : Nat) :
    (g.newEdge fr tg).Wf := by
  intro e he
  rw [Graph.newEdge_edges] at he
  rw [Graph.newEdge_nNodes]
  split at he
  · have := hg e he; omega
  · rcases List.mem_append.mp he with h | h
    · have := hg e h; omega
    · rcases List.mem_singleton.mp h with rfl
      constructor <;> omega

theorem Graph.Wf.newNode {g : Graph} (hg : g.Wf) : g.newNode.Wf := by
  intro e he
  simp only [Graph.newNode] at he ⊢
  have := hg e he
  omega

/-! Generic lemmas about folds of graph-mutating steps, used for
`append_graph` (a fold of `new_edge` over the appended graph's raw edges)
and for the edge-insertion loop of the linking phase. -/

theorem foldl_edges_mono {α : Type} (step : Graph → α → Graph)
    (hstep : ∀ g a, g.edges ⊆ (step g a).edges) :
    ∀ (l : List α) (g : Graph), g.edges ⊆ (l.foldl step g).edges := by
  intro l
  induction l with
  | nil => intro g; exact fun x h => h
  | cons a l ih =>
      intro g
      exact fun x hx => ih (step g a) (hstep g a hx)

theorem foldl_edges_extend {α : Type} (step : Graph → α → Graph)
    (hstep : ∀ g a, ∃ t, (step g a).edges = g.edges ++ t) :
    ∀ (l : List α) (g : Graph), ∃ t, (l.foldl step g).edges = g.edges ++ t := by
  intro l
  induction l with
  | nil => intro g; exact ⟨[], by simp⟩
  | cons a l ih =>
      intro g
      obtain ⟨t1, ht1⟩ := hstep g a
      obtain ⟨t2, ht2⟩ := ih (step g a)
      exact ⟨t1 ++ t2, by simp [List.foldl_cons, ht2, ht1]⟩

theorem foldl_nNodes_le {α : Type} (step : Graph → α → Graph)
    (hstep : ∀ g a, g.nNodes ≤ (step g a).nNodes) :
    ∀ (l : List α) (g : Graph), g.nNodes ≤ (l.foldl step g).nNodes := by
  intro l
  induction l with
  | nil => intro g; exact Nat.le_refl _
  | cons a l ih =>
      intro g
      exact Nat.le_trans (hstep g a) (ih (step g a))

theorem foldl_wf {α : Type} (step : Graph → α → Graph)
    (hstep : ∀ g a, g.Wf → (step g a).Wf) :
    ∀ (l : List α) (g : Graph), g.Wf → (l.foldl step g).Wf := by
  intro l
  induction l with
  | nil => intro g hg; exact hg
  | cons a l ih => intro g hg; exact ih (step g a) (hstep g a hg)

/-- The node-extension fold of `append_graph`: as long as every inserted
(shifted) edge stays below the current node count, the node count never
moves. -/
theorem foldl_newEdge_shift_nNodes (n : Nat) :
    ∀ (l : List (Nat × Nat)) (g : Graph),
      (∀ e ∈ l, e.1 + n < g.nNodes ∧ e.2 + n < g.nNodes) →
      (l.foldl (fun acc e => acc.newEdge (e.1 + n) (e.2 + n)) g).nNodes = g.nNodes := by
  intro l
  induction l with
  | nil => intro g _; rfl
  | cons e l ih =>
      intro g hl
      have he := hl e (List.mem_cons_self _ _)
      have hstep : (g.newEdge (e.1 + n) (e.2 + n)).nNodes = g.nNodes :=
        Graph.newEdge_nNodes_of_lt g _ _ he.1 he.2
      have := ih (g.newEdge (e.1 + n) (e.2 + n)) (fun x hx => by
        rw [hstep]; exact hl x (List.mem_cons_of_mem _ hx))
      simp only [List.foldl_cons]
      rw [this, hstep]

theorem foldl_newEdge_shift_mem (n : Nat) :
    ∀ (l : List (Nat × Nat)) (g : Graph) (e : Nat × Nat), e ∈ l →
      (e.1 + n, e.2 + n) ∈ (l.foldl (fun acc x => acc.newEdge (x.1 + n) (x.2 + n)) g).edges := by
  intro l
  induction l with
  | nil => intro g e he; cases he
  | cons a l ih =>
      intro g e he
      rcases List.mem_cons.mp he with rfl | he
      · simp only [List.foldl_cons]
        exact foldl_edges_mono _ (fun g x => Graph.newEdge_edges_mono g _ _) l _
          (Graph.newEdge_mem_self g _ _)
      · exact ih _ e he

/-! Lemmas about `append_graph` itself. -/

theorem Graph.appendGraph_nNodes (g : Graph) {h : Graph} (hh : h.Wf) :
    (g.appendGraph h).nNodes = g.nNodes + h.nNodes := by
  unfold Graph.appendGraph
  have := foldl_newEdge_shift_nNodes g.nNodes h.edges
    { g with nNodes := g.nNodes + h.nNodes }
    (fun e he => by have := hh e he; constructor <;> (simp; omega))
  simpa using this

theorem Graph.appendGraph_nNodes_le (g h : Graph) :
    g.nNodes + h.nNodes ≤ (g.appendGraph h).nNodes := by
  unfold Graph.appendGraph
  have := foldl_nNodes_le (fun acc e => Graph.newEdge acc (e.1 + g.nNodes) (e.2 + g.nNodes))
    (fun g' e => Graph.nNodes_le_newEdge g' _ _) h.edges
    { g with nNodes := g.nNodes + h.nNodes }
  simpa using this

theorem Graph.appendGraph_mem (g h : Graph) (e : Nat × Nat) (he : e ∈ h.edges) :
    (e.1 + g.nNodes, e.2 + g.nNodes) ∈ (g.appendGraph h).edges := by
  unfold Graph.appendGraph
  exact foldl_newEdge_shift_mem g.nNodes h.edges _ e he

theorem Graph.appendGraph_edges_extend (g h : Graph) :
    ∃ t, (g.appendGraph h).edges = g.edges ++ t := by
  unfold Graph.appendGraph
  have := foldl_edges_extend (fun acc e => Graph.newEdge acc (e.1 + g.nNodes) (e.2 + g.nNodes))
    (fun g' e => Graph.newEdge_edges_extend g' _ _) h.edges
    { g with nNodes := g.nNodes + h.nNodes }
  simpa using this

theorem Graph.appendGraph_edges_mono (g h : Graph) :
    g.edges ⊆ (g.appendGraph h).edges := by
  obtain ⟨t, ht⟩ := Graph.appendGraph_edges_extend g h
  rw [ht]
  exact fun x hx => List.mem_append_left _ hx

theorem Graph.Wf.appendGraph {g : Graph} (hg : g.Wf) (h : Graph) :
    (g.appendGraph h).Wf := by
  unfold Graph.appendGraph
  refine foldl_wf _ (fun g' e hg' => Graph.Wf.newEdge hg' _ _) h.edges _ ?_
  intro e he
  dsimp only at he ⊢
  have := hg e he
  constructor <;> omega

/-! Embedding of the chain/path generator and of the typed parameter
framework. -/

/-- Embedding of the graph built by the generator returned by
`ChainGeneratorFactory::try_with_params` (src/generators/chain_generator.rs):
`0` gives the default (empty) graph, `1` a single fresh node, and `n ≥ 2`
folds `new_edge(i, i+1)` for `i` in `0..n-1` over an empty graph.  The
produced closure ignores its PRNG argument, so it is modelled by the graph
it returns. -/
def chainGraph : Nat → Graph
  | 0 => default
  | 1 => (default : Graph).newNode
  | m + 2 => (List.range (m + 1)).foldl (fun g i => g.newEdge i (i + 1)) default

/-- Embedding of `ParameterType` (src/core/parameters.rs). -/
inductive ParameterType where
  | positiveInteger
  | probability
deriving DecidableEq, Repr

/-- Embedding of `ParameterValue` (src/core/parameters.rs).  The Rust
`Probability` payload is an `f64`; it is modelled as a rational number
holding the exact decimal value of the token (floating-point rounding is
not modelled). -/
inductive ParameterValue where
  | positiveInteger (n : Nat)
  | probability (q : ℚ)
deriving DecidableEq, Repr

/-- The three user-input error kinds of the engine.  The Rust code builds
them as `anyhow` errors; the spec names them `ArityError` (from the
"expected {} parameters, got {}" message of `ParameterParser::parse`),
`TypeError` (from `ParameterType::parse`, carrying the offending token)
and `NotFoundError` (from `named_from_str`, carrying the raw input
string). -/
inductive GenError where
  | arityError (expected got : Nat)
  | typeError (token : String)
  | notFoundError (raw : String)
deriving DecidableEq, Repr

instance {ε α : Type} [DecidableEq ε] [DecidableEq α] : DecidableEq (Except ε α)
  | .ok a, .ok b =>
      if h : a = b then .isTrue (by rw [h])
      else .isFalse (by intro hc; cases hc; exact h rfl)
  | .ok _, .error _ => .isFalse (by intro hc; cases hc)
  | .error _, .ok _ => .isFalse (by intro hc; cases hc)
  | .error e, .error f =>
      if h : e = f then .isTrue (by rw [h])
      else .isFalse (by intro hc; cases hc; exact h rfl)

/-- Splitting a character list at every occurrence of a separator, the
model of Rust `str::split(sep)` (and of `String.splitOn` for a one-character
separator): `"a,,b"` gives `["a", "", "b"]` and `""` gives `[""]`. -/
def splitOnChar (sep : Char) : List Char → List (List Char)
  | [] => [[]]
  | c :: cs =>
      if c = sep then [] :: splitOnChar sep cs
      else
        match splitOnChar sep cs with
        | [] => [[c]]
        | t :: ts => (c :: t) :: ts

/-- Value of a list of ASCII digit characters read in base 10. -/
def digitsToNat (l : List Char) : Nat :=
  l.foldl (fun acc c => acc * 10 + (c.toNat - 48)) 0

/-- Model of Rust `str::parse::<usize>`: an optional leading `+` followed
by at least one ASCII digit, nothing else; values at or above `2^64`
overflow and fail. -/
def parseUsize (s : String) : Option Nat :=
  let l := match s.toList with
    | '+' :: rest => rest
    | l => l
  if l.isEmpty then none
  else if l.all Char.isDigit then
    let v := digitsToNat l
    if v < 2 ^ 64 then some v else none
  else none

/-- Exact rational value `sign * m / 10 ^ fracLen * 10 ^ e` of a decimal
literal whose digits (integer and fractional part concatenated) denote
`m`, whose fractional part has `fracLen` digits, and whose exponent is
`e`. -/
def decimalToRat (sign : Int) (m : Nat) (fracLen : Nat) (e : Int) : ℚ :=
  match e with
  | .ofNat e2 => mkRat (sign * ((m * 10 ^ e2 : Nat) : Int)) (10 ^ fracLen)
  | .negSucc e2 => mkRat (sign * (m : Int)) (10 ^ (fracLen + e2 + 1))

/-- Model of Rust `str::parse::<f64>` restricted to finite decimal
literals: an optional sign, a mantissa `digits[.digits]` or `.digits`
holding at least one digit, and an optional exponent `(e|E)[sign]digits`.
The value is returned as the exact rational the literal denotes;
rounding to the nearest `f64` is not modelled, and the `inf`/`NaN`
spellings are rejected here (the range check of `ParameterType::parse`
rejects them in the Rust code, giving the same observable error kind). -/
def parseF64AsRat (s : String) : Option ℚ :=
  let (sign, rest) :=
    match s.toList with
    | '-' :: tl => ((-1 : Int), tl)
    | '+' :: tl => ((1 : Int), tl)
    | l => ((1 : Int), l)
  let mantissa := rest.takeWhile (fun c => c ≠ 'e' ∧ c ≠ 'E')
  let expPart := rest.drop mantissa.length
  let intPart := mantissa.takeWhile (fun c => c ≠ '.')
  let fracPart := mantissa.drop (intPart.length + 1)
  let mantissaOk :=
    mantissa.length ≤ intPart.length + 1 + fracPart.length ∧
    intPart.all Char.isDigit ∧ fracPart.all Char.isDigit ∧
    (intPart ++ fracPart) ≠ []
  let exp : Option Int :=
    match expPart with
    | [] => some 0
    | _ :: es =>
        let (esign, ds) :=
          match es with
          | '-' :: tl => ((-1 : Int), tl)
          | '+' :: tl => ((1 : Int), tl)
          | _ => ((1 : Int), es)
        if ds ≠ [] ∧ ds.all Char.isDigit then some (esign * (digitsToNat ds : Int))
        else none
  match exp with
  | none => none
  | some e =>
      if mantissaOk then
        some (decimalToRat sign (digitsToNat (intPart ++ fracPart)) fracPart.length e)
      else none

/-- Embedding of `ParameterType::parse` (src/core/parameters.rs lines
39-57): a `PositiveInteger` token must parse as a `usize`; a
`Probability` token must parse as an `f64` and lie inside `[0, 1]`. -/
def ParameterType.parse (t : ParameterType) (param : String) :
    Except GenError ParameterValue :=
  match t with
  | .positiveInteger =>
      match parseUsize param with
      | some n => .ok (.positiveInteger n)
      | none => .error (.typeError param)
  | .probability =>
      match parseF64AsRat param with
      | some p =>
          if 0 ≤ p ∧ p ≤ 1 then .ok (.probability p)
          else .error (.typeError param)
      | none => .error (.typeError param)

/-- The token list of `ParameterParser::parse`: the input splits on `,`
only when it is non-empty (`"".split` would yield one empty token in
Rust, so the code special-cases it to zero tokens). -/
def splitParams (strParams : String) : List String :=
  if strParams.toList.isEmpty then []
  else (splitOnChar ',' strParams.toList).map String.mk

/-- Embedding of `ParameterParser::parse` (src/core/parameters.rs lines
12-28): the input splits on `,` only when non-empty; a token count
different from the declared type count is an arity error; otherwise every
token is parsed positionally against its declared type, the first failure
winning. -/
def ParameterParser.parse (parameterTypes : List ParameterType)
    (strParams : String) : Except GenError (List ParameterValue) :=
  let parameters := splitParams strParams
  if parameters.length ≠ parameterTypes.length then
    .error (.arityError parameterTypes.length parameters.length)
  else
    (parameterTypes.zip parameters).mapM (fun p => ParameterType.parse p.1 p.2)

/-- Embedding of the `NamedParam<T>` capability (src/core/named_param.rs):
a plugin exposes a name, declared parameter types and a constructor from
parsed parameter values.  The `description` lines play no role in the
claims and are omitted. -/
structure NamedFactory (T : Type) where
  name : String
  expectedParameterTypes : List ParameterType
  tryWithParams : List ParameterValue → Except GenError T

/-- Model of Rust `str::split_once('/')` merged with the `None` fallback
of `named_from_str`: the part before the first `/` and the part after it,
or `(s, "")` when there is no `/`. -/
def splitOnceSlash (s : String) : String × String :=
  match splitOnChar '/' s.toList with
  | [] => (s, "")
  | [_] => (s, "")
  | k :: rest => (String.mk k, String.mk (List.intercalate ['/'] rest))

/-- Embedding of `named_from_str` (src/core/named_param.rs lines 53-80):
split the input at the first `/`, look for the first registered factory
whose name equals the part before it, parse the part after it against
that factory's declared parameter types, and construct the plugin; an
unknown name yields the not-found error carrying the raw input string.
The `anyhow` context wrappers do not change the error kind and are
dropped. -/
def namedFromStr {T : Type} (collection : List (NamedFactory T)) (s : String) :
    Except GenError T :=
  let kp := splitOnceSlash s
  match collection.find? (fun f => f.name == kp.1) with
  | some f =>
      match ParameterParser.parse f.expectedParameterTypes kp.2 with
      | .ok vs => f.tryWithParams vs
      | .error e => .error e
  | none => .error (.notFoundError s)

/-- The chain generator factory as registered in the plugin registry.
The generator closure is taken from
`ChainGeneratorFactory::try_with_params` (src/generators/chain_generator.rs,
which expects exactly one positive integer); the declared-parameter-type
form of the interface is the one shown for the path generator in
`src/generators/mod.rs`.  The catch-all arm is a parameter-value/type
mismatch, a fatal plugin defect in the Rust code that the registry can
never trigger. -/
def chainFactory : NamedFactory Graph :=
  { name := "chain"
    expectedParameterTypes := [ParameterType.positiveInteger]
    tryWithParams := fun vs =>
      match vs with
      | [ParameterValue.positiveInteger n] => .ok (chainGraph n)
      | _ => .error (.typeError "unexpected parameter(s)") }

/-! Embedding of `InnerOuterGenerator` (src/core/inner_outer_generator.rs).

The Rust functions are generic over an RNG type `R : Rng + SeedableRng`;
the two operations the pipeline uses are `rng.sample::<u64>` (drawing one
64-bit seed, modelled by `next`) and `R::seed_from_u64` (building a fresh
private RNG from a seed).  The outer and inner builders mutate the RNG
they are given, so they are modelled in state-passing style; a linker is
given a private RNG whose final state is discarded by the caller. -/

/-- Abstract model of the RNG interface the pipeline uses: `next` is one
`u64` draw (`sample_iter(Standard)` advancing the state), `seedFromU64`
is `R::seed_from_u64`. -/
structure RngModel (R : Type) where
  next : R → Nat × R
  seedFromU64 : Nat → R

/-- The three pluggable inputs of `new_inner_outer` together with the RNG
model: `outer_graph_builder`, `inner_graph_builder` and `linker`.  A
linker receives the two `InnerGraph` handles (outer-node index paired
with the inner graph) and a private RNG. -/
structure Pipeline (R : Type) where
  rm : RngModel R
  outerGraphBuilder : R → Graph × R
  innerGraphBuilder : R → Graph × R
  linker : (Nat × Graph) → (Nat × Graph) → R → List InterGraphEdge

/-- Sequential draw of `n` 64-bit seeds from the shared RNG, the model of
`rng.sample_iter(Standard).take(n).collect()`. -/
def drawSeeds {R : Type} (rm : RngModel R) : Nat → R → List Nat × R
  | 0, r => ([], r)
  | n + 1, r =>
      let (s, r1) := rm.next r
      let (rest, r2) := drawSeeds rm n r1
      (s :: rest, r2)

/-- Embedding of `InnerOuterGenerator::generate_inner_graphs`
(src/core/inner_outer_generator.rs lines 90-113), value part: one seed per
outer node is drawn sequentially from the shared RNG, then every inner
graph is built by re-seeding a private RNG from its own seed; the
parallel `collect` keeps outer-node order. -/
def generateInnerGraphs {R : Type} (P : Pipeline R) (outerGraph : Graph)
    (r : R) : List Graph × R :=
  let (innerSeeds, r2) := drawSeeds P.rm outerGraph.nNodes r
  (innerSeeds.map (fun s => (P.innerGraphBuilder (P.rm.seedFromU64 s)).1), r2)

/-- Embedding of the `cumulated_n_nodes` fold of
`InnerOuterGenerator::link` (src/core/inner_outer_generator.rs lines
131-141): for a non-empty list of inner graphs it is the prefix-sum
table `[0, n₀, n₀+n₁, ...]` with one final entry for the total. -/
def cumulatedNNodes (innerGraphs : List Graph) : List Nat :=
  innerGraphs.foldl
    (fun v g => if v.isEmpty then [0, g.nNodes] else v ++ [v.getLastD 0 + g.nNodes])
    []

/-- Embedding of the `match inter_edge` translation inside
`InnerOuterGenerator::add_linking_edges` (src/core/inner_outer_generator.rs
lines 188-197), for the outer edge `outerEdge = (a, b)`:
`FirstToSecond(a, b) ⇒ (a + cum[outer_edge.0], b + cum[outer_edge.1])`
and `SecondToFirst(b, a) ⇒ (a + cum[outer_edge.1], b + cum[outer_edge.0])`
(the Rust pattern names its first field `b` and its second field `a`). -/
def translateInterEdge (cum : List Nat) (outerEdge : Nat × Nat) :
    InterGraphEdge → Nat × Nat
  | .firstToSecond a b => (a + cum.getD outerEdge.1 0, b + cum.getD outerEdge.2 0)
  | .secondToFirst b a => (a + cum.getD outerEdge.2 0, b + cum.getD outerEdge.1 0)

/-- Embedding of `InnerOuterGenerator::add_linking_edges`
(src/core/inner_outer_generator.rs lines 155-208): one seed per raw outer
edge is drawn sequentially from the shared RNG; for each outer edge the
linker runs on a private RNG re-seeded from that edge's seed; the
returned inter-graph edges are translated to global coordinates, the
per-edge result lists are flattened in outer-edge order, and every global
edge is inserted with `new_edge`. -/
def addLinkingEdges {R : Type} (P : Pipeline R) (outerGraph : Graph)
    (innerGraphs : List Graph) (cum : List Nat) (globalGraph : Graph)
    (r : R) : Graph × R :=
  let rawEdges := outerGraph.edges
  let (seeds, r2) := drawSeeds P.rm rawEdges.length r
  let allGlobalEdges := (List.range rawEdges.length).map (fun i =>
    let petgraphEdge := rawEdges.getD i (0, 0)
    let rng := P.rm.seedFromU64 (seeds.getD i 0)
    let outerEdge := (petgraphEdge.1, petgraphEdge.2)
    let interAttacks :=
      P.linker (outerEdge.1, innerGraphs.getD outerEdge.1 default)
        (outerEdge.2, innerGraphs.getD outerEdge.2 default) rng
    interAttacks.map (translateInterEdge cum outerEdge))
  (allGlobalEdges.flatten.foldl (fun g e => g.newEdge e.1 e.2) globalGraph, r2)

/-- Embedding of `InnerOuterGenerator::link`
(src/core/inner_outer_generator.rs lines 115-153), value part: the inner
graphs are folded into one global graph with `append_graph`, the
prefix-sum offset table is computed, and the linking edges are added. -/
def link {R : Type} (P : Pipeline R) (outerGraph : Graph)
    (innerGraphs : List Graph) (r : R) : Graph × R :=
  let globalGraph := innerGraphs.foldl Graph.appendGraph (default : Graph)
  let cum := cumulatedNNodes innerGraphs
  addLinkingEdges P outerGraph innerGraphs cum globalGraph r

/-- Embedding of `InnerOuterGenerator::new_inner_outer`
(src/core/inner_outer_generator.rs lines 55-76), value part.  The fold of
`append_graph` into a fresh local graph at lines 71-74 of the source
builds a value that is never read (`link` rebuilds its own global graph),
so it has no counterpart here. -/
def newInnerOuter {R : Type} (P : Pipeline R) (r : R) : Graph × R :=
  let (outerGraph, r1) := P.outerGraphBuilder r
  let (innerGraphs, r2) := generateInnerGraphs P outerGraph r1
  link P outerGraph innerGraphs r2

/-! Model of the two rayon parallel maps (`into_par_iter().map(..).collect()`
over inner-graph tasks and over outer-edge tasks).  A run of `n`
independent tasks on any number of worker threads is abstracted by the
order in which the tasks execute, an arbitrary permutation `sched` of
`0..n`; each task `i` computes `f i` from its private inputs only, and
rayon's `collect` places every result back at its task's index. -/

/-- Completion log of the tasks: the pairs `(i, f i)` in execution
order. -/
def taskLog {α : Type} (f : Nat → α) (sched : List Nat) : List (Nat × α) :=
  sched.map (fun i => (i, f i))

/-- Ordered collection of the task results: for every index `i < n`, the
result recorded for task `i`, in index order — `none` if some task never
ran. -/
def collectInOrder {α : Type} (log : List (Nat × α)) (n : Nat) :
    Option (List α) :=
  (List.range n).mapM (fun i => (log.find? (fun p => p.1 == i)).map Prod.snd)

/-- Scheduled variant of `generate_inner_graphs`: the seeds are drawn
sequentially exactly as in `generateInnerGraphs`, then the inner-graph
tasks run in the order `sched` and are collected back in outer-node
order. -/
def generateInnerGraphsSched {R : Type} (P : Pipeline R) (sched : List Nat)
    (outerGraph : Graph) (r : R) : Option (List Graph) × R :=
  let (innerSeeds, r2) := drawSeeds P.rm outerGraph.nNodes r
  (collectInOrder
    (taskLog
      (fun i => (P.innerGraphBuilder (P.rm.seedFromU64 (innerSeeds.getD i 0))).1)
      sched)
    outerGraph.nNodes, r2)

/-- Scheduled variant of `add_linking_edges`: the per-edge seeds are
drawn sequentially, then the linker tasks run in the order `sched` and
their translated edge lists are collected back in outer-edge order before
the sequential `new_edge` insertion loop. -/
def addLinkingEdgesSched {R : Type} (P : Pipeline R) (sched : List Nat)
    (outerGraph : Graph) (innerGraphs : List Graph) (cum : List Nat)
    (globalGraph : Graph) (r : R) : Option Graph × R :=
  let rawEdges := outerGraph.edges
  let (seeds, r2) := drawSeeds P.rm rawEdges.length r
  let allGlobalEdges := collectInOrder
    (taskLog
      (fun i =>
        let petgraphEdge := rawEdges.getD i (0, 0)
        let rng := P.rm.seedFromU64 (seeds.getD i 0)
        let outerEdge := (petgraphEdge.1, petgraphEdge.2)
        let interAttacks :=
          P.linker (outerEdge.1, innerGraphs.getD outerEdge.1 default)
            (outerEdge.2, innerGraphs.getD outerEdge.2 default) rng
        interAttacks.map (translateInterEdge cum outerEdge))
      sched)
    rawEdges.length
  (allGlobalEdges.map
      (fun ls => ls.flatten.foldl (fun g e => g.newEdge e.1 e.2) globalGraph),
    r2)

/-- Scheduled variant of `new_inner_outer`: the two parallel phases run
under the task orders `sched1` (inner generation) and `sched2` (linking);
everything else is the sequential pipeline. -/
def newInnerOuterSched {R : Type} (P : Pipeline R) (sched1 sched2 : List Nat)
    (r : R) : Option Graph × R :=
  let (outerGraph, r1) := P.outerGraphBuilder r
  let (innerGraphsOpt, r2) := generateInnerGraphsSched P sched1 outerGraph r1
  match innerGraphsOpt with
  | none => (none, r2)
  | some innerGraphs =>
      let globalGraph := innerGraphs.foldl Graph.appendGraph (default : Graph)
      let cum := cumulatedNNodes innerGraphs
      addLinkingEdgesSched P sched2 outerGraph innerGraphs cum globalGraph r2

/-! Traced variant of the pipeline for the generation-step listeners.
`InnerOuterGenerator` owns a vector of `generation_step_listeners`; a
notification step runs `for_each(|l| (l)(step))` over it, synchronously,
on the caller's thread.  The trace records one `notify` event per
listener index per notification, plus one event for each piece of phase
work: the outer-builder call, each inner-builder task and each linker
task (the two parallel phases emit their work events in an arbitrary
task order `sched1` / `sched2`). -/

/-- Embedding of `InnerOuterGenerationStep`
(src/core/inner_outer_generator.rs lines 14-21). -/
inductive InnerOuterGenerationStep where
  | outerGeneration
  | innerGeneration
  | linking
deriving DecidableEq, Repr

/-- Events of one traced run of `new_inner_outer`. -/
inductive GenEvent where
  | notify (l : Nat) (step : InnerOuterGenerationStep)
  | outerBuilt
  | innerBuilt (i : Nat)
  | linkerCalled (i : Nat)
deriving DecidableEq, Repr

/-- One notification: every registered listener (there are `nListeners`
of them) is called in registration order with the given step. -/
def notifyAll (nListeners : Nat) (s : InnerOuterGenerationStep) : List GenEvent :=
  (List.range nListeners).map (fun l => GenEvent.notify l s)

/-- Traced `generate_outer_graph` (src/core/inner_outer_generator.rs lines
78-88): all listeners are notified of `OuterGeneration`, then the outer
builder runs on the shared RNG. -/
def generateOuterGraphTr {R : Type} (nListeners : Nat) (P : Pipeline R)
    (r : R) : (Graph × R) × List GenEvent :=
  (P.outerGraphBuilder r,
    notifyAll nListeners .outerGeneration ++ [GenEvent.outerBuilt])

/-- Traced `generate_inner_graphs` (src/core/inner_outer_generator.rs
lines 90-113): all listeners are notified of `InnerGeneration`, then the
seeds are drawn and the inner-builder tasks run (in task order
`sched1`). -/
def generateInnerGraphsTr {R : Type} (nListeners : Nat) (P : Pipeline R)
    (sched1 : List Nat) (outerGraph : Graph) (r : R) :
    (List Graph × R) × List GenEvent :=
  ((generateInnerGraphs P outerGraph r),
    notifyAll nListeners .innerGeneration ++ sched1.map GenEvent.innerBuilt)

/-- Traced `link` (src/core/inner_outer_generator.rs lines 115-153): the
global graph and the offset table are built, then all listeners are
notified of `Linking`, then `add_linking_edges` runs the linker tasks (in
task order `sched2`). -/
def linkTr {R : Type} (nListeners : Nat) (P : Pipeline R) (sched2 : List Nat)
    (outerGraph : Graph) (innerGraphs : List Graph) (r : R) :
    (Graph × R) × List GenEvent :=
  (link P outerGraph innerGraphs r,
    notifyAll nListeners .linking ++ sched2.map GenEvent.linkerCalled)

/-- Traced `new_inner_outer`: the three phases in order, with their
traces concatenated in program order. -/
def newInnerOuterTr {R : Type} (nListeners : Nat) (P : Pipeline R)
    (sched1 sched2 : List Nat) (r : R) : (Graph × R) × List GenEvent :=
  let ((outerGraph, r1), t1) := generateOuterGraphTr nListeners P r
  let ((innerGraphs, r2), t2) :=
    generateInnerGraphsTr nListeners P sched1 outerGraph r1
  let ((g, r3), t3) := linkTr nListeners P sched2 outerGraph innerGraphs r2
  ((g, r3), t1 ++ (t2 ++ t3))

/-! Scheduling independence: whatever order the tasks of a parallel phase
execute in, the ordered collection coincides with the sequential map. -/

theorem find?_taskLog {α : Type} (f : Nat → α) :
    ∀ (sched : List Nat) (i : Nat), i ∈ sched →
      (taskLog f sched).find? (fun p => p.1 == i) = some (i, f i) := by
  intro sched
  induction sched with
  | nil => intro i hi; cases hi
  | cons j l ih =>
      intro i hi
      simp only [taskLog, List.map_cons, List.find?_cons]
      by_cases h : j = i
      · subst h; simp
      · have hb : ((j, f j).1 == i) = false := by simp [h]
        rw [hb]
        rcases List.mem_cons.mp hi with rfl | hi2
        · exact absurd rfl h
        · exact ih i hi2

theorem mapM_eq_some_map {α β : Type} (gOpt : α → Option β) (g : α → β) :
    ∀ (l : List α), (∀ a ∈ l, gOpt a = some (g a)) →
      l.mapM gOpt = some (l.map g) := by
  intro l
  induction l with
  | nil => intro _; rfl
  | cons a l ih =>
      intro h
      have ha := h a (List.mem_cons_self _ _)
      have hl := ih (fun x hx => h x (List.mem_cons_of_mem _ hx))
      rw [List.mapM_cons, ha, hl]
      rfl

theorem collectInOrder_taskLog {α : Type} (f : Nat → α) (n : Nat)
    (sched : List Nat) (hp : sched.Perm (List.range n)) :
    collectInOrder (taskLog f sched) n = some ((List.range n).map f) := by
  unfold collectInOrder
  apply mapM_eq_some_map
  intro i hi
  rw [find?_taskLog f sched i (hp.mem_iff.mpr hi)]
  rfl

theorem drawSeeds_length {R : Type} (rm : RngModel R) :
    ∀ (n : Nat) (r : R), (drawSeeds rm n r).1.length = n := by
  intro n
  induction n with
  | zero => intro r; rfl
  | succ n ih =>
      intro r
      simp only [drawSeeds]
      simpa using ih (rm.next r).2

theorem range_map_getD {β : Type} (F : Nat → β) :
    ∀ (l : List Nat),
      (List.range l.length).map (fun i => F (l.getD i 0)) = l.map F := by
  intro l
  induction l with
  | nil => rfl
  | cons x xs ih =>
      simp only [List.length_cons, List.range_succ_eq_map, List.map_cons,
        List.map_map, List.getD_cons_zero]
      rw [← ih]
      refine congrArg (F x :: ·) (List.map_congr_left ?_)
      intro i _
      simp [Function.comp, List.getD_cons_succ]

theorem generateInnerGraphsSched_eq {R : Type} (P : Pipeline R)
    (sched : List Nat) (outerGraph : Graph) (r : R)
    (hp : sched.Perm (List.range outerGraph.nNodes)) :
    generateInnerGraphsSched P sched outerGraph r =
      (some (generateInnerGraphs P outerGraph r).1,
        (generateInnerGraphs P outerGraph r).2) := by
  unfold generateInnerGraphsSched generateInnerGraphs
  cases hds : drawSeeds P.rm outerGraph.nNodes r with
  | mk seeds r2 =>
      simp only
      rw [collectInOrder_taskLog _ _ _ hp]
      have hlen : seeds.length = outerGraph.nNodes := by
        have := drawSeeds_length P.rm outerGraph.nNodes r
        rw [hds] at this
        simpa using this
      rw [← hlen]
      rw [range_map_getD (fun s => (P.innerGraphBuilder (P.rm.seedFromU64 s)).1) seeds]

theorem addLinkingEdgesSched_eq {R : Type} (P : Pipeline R)
    (sched : List Nat) (outerGraph : Graph) (innerGraphs : List Graph)
    (cum : List Nat) (globalGraph : Graph) (r : R)
    (hp : sched.Perm (List.range outerGraph.edges.length)) :
    addLinkingEdgesSched P sched outerGraph innerGraphs cum globalGraph r =
      (some (addLinkingEdges P outerGraph innerGraphs cum globalGraph r).1,
        (addLinkingEdges P outerGraph innerGraphs cum globalGraph r).2) := by
  unfold addLinkingEdgesSched addLinkingEdges
  cases hds : drawSeeds P.rm outerGraph.edges.length r with
  | mk seeds r2 =>
      simp only
      rw [collectInOrder_taskLog _ _ _ hp]
      rfl

theorem newInnerOuterSched_eq_seq {R : Type} (P : Pipeline R)
    (s1 s2 : List Nat) (r : R)
    (h1 : s1.Perm (List.range (P.outerGraphBuilder r).1.nNodes))
    (h2 : s2.Perm (List.range (P.outerGraphBuilder r).1.edges.length)) :
    newInnerOuterSched P s1 s2 r =
      (some (newInnerOuter P r).1, (newInnerOuter P r).2) := by
  unfold newInnerOuterSched newInnerOuter link
  cases hog : P.outerGraphBuilder r with
  | mk outerGraph r1 =>
      rw [hog] at h1 h2
      simp only at h1 h2 ⊢
      rw [generateInnerGraphsSched_eq P s1 outerGraph r1 h1]
      cases hig : generateInnerGraphs P outerGraph r1 with
      | mk innerGraphs r2 =>
          simp only
          rw [addLinkingEdgesSched_eq P s2 outerGraph innerGraphs
            (cumulatedNNodes innerGraphs)
            (innerGraphs.foldl Graph.appendGraph default) r2 h2]

/-! Prefix-sum offsets of a list of inner graphs and their relation to
`cumulated_n_nodes` and to the fold of `append_graph`. -/

/-- Prefix sum of the node counts of the first `i` graphs: the global
index at which inner graph `i` starts. -/
def offsets (gs : List Graph) (i : Nat) : Nat :=
  ((gs.take i).map Graph.nNodes).sum

/-- Running sums of node counts starting from `base`:
`[base + n₀, base + n₀ + n₁, ...]`. -/
def sumsFrom (base : Nat) : List Graph → List Nat
  | [] => []
  | g :: gs => (base + g.nNodes) :: sumsFrom (base + g.nNodes) gs

theorem offsets_zero (gs : List Graph) : offsets gs 0 = 0 := rfl

theorem default_nNodes : (default : Graph).nNodes = 0 := rfl

theorem offsets_cons (g : Graph) (gs : List Graph) (i : Nat) :
    offsets (g :: gs) (i + 1) = g.nNodes + offsets gs i := by
  simp [offsets, List.take_succ_cons]

theorem sumsFrom_getD :
    ∀ (gs : List Graph) (base i : Nat), i < gs.length →
      (sumsFrom base gs).getD i 0 = base + offsets gs (i + 1) := by
  intro gs
  induction gs with
  | nil => intro base i hi; cases hi
  | cons g gs ih =>
      intro base i hi
      cases i with
      | zero =>
          simp [sumsFrom, offsets_cons, offsets_zero]
      | succ i =>
          simp only [sumsFrom, List.getD_cons_succ]
          rw [ih (base + g.nNodes) i (by simpa using hi), offsets_cons]
          omega

theorem cumulatedNNodes_foldl_aux :
    ∀ (gs : List Graph) (v : List Nat), v ≠ [] →
      gs.foldl
        (fun v g => if v.isEmpty then [0, g.nNodes] else v ++ [v.getLastD 0 + g.nNodes])
        v = v ++ sumsFrom (v.getLastD 0) gs := by
  intro gs
  induction gs with
  | nil => intro v _; simp [sumsFrom]
  | cons g gs ih =>
      intro v hv
      simp only [List.foldl_cons]
      rw [if_neg (by simpa using hv)]
      rw [ih (v ++ [v.getLastD 0 + g.nNodes]) (by simp)]
      simp [sumsFrom, List.getLastD_concat]

theorem cumulatedNNodes_eq (g : Graph) (gs : List Graph) :
    cumulatedNNodes (g :: gs) = 0 :: sumsFrom 0 (g :: gs) := by
  unfold cumulatedNNodes
  simp only [List.foldl_cons, List.isEmpty_nil, if_pos]
  rw [cumulatedNNodes_foldl_aux gs [0, g.nNodes] (by simp)]
  simp [sumsFrom]

theorem cumulatedNNodes_getD (gs : List Graph) (i : Nat)
    (hgs : gs ≠ []) (hi : i ≤ gs.length) :
    (cumulatedNNodes gs).getD i 0 = offsets gs i := by
  cases gs with
  | nil => exact absurd rfl hgs
  | cons g gs =>
      rw [cumulatedNNodes_eq]
      cases i with
      | zero => simp [offsets_zero]
      | succ i =>
          simp only [List.getD_cons_succ]
          rw [sumsFrom_getD (g :: gs) 0 i
            (by simp only [List.length_cons] at hi ⊢; omega)]
          omega

/-- Membership of every inner graph's shifted edges in the fold of
`append_graph`: inner graph `i`'s edges land in the block starting at
`g0.nNodes + offsets gs i`. -/
theorem foldl_append_mem :
    ∀ (gs : List Graph) (g0 : Graph), (∀ g ∈ gs, g.Wf) →
      ∀ i, i < gs.length → ∀ e ∈ (gs.getD i default).edges,
        (e.1 + (g0.nNodes + offsets gs i), e.2 + (g0.nNodes + offsets gs i)) ∈
          (gs.foldl Graph.appendGraph g0).edges := by
  intro gs
  induction gs with
  | nil => intro g0 _ i hi; cases hi
  | cons g gs ih =>
      intro g0 hwf i hi e he
      cases i with
      | zero =>
          simp only [List.getD_cons_zero] at he
          simp only [List.foldl_cons]
          refine foldl_edges_mono Graph.appendGraph
            (fun g' a => Graph.appendGraph_edges_mono g' a) gs (g0.appendGraph g) ?_
          have := Graph.appendGraph_mem g0 g e he
          simpa [offsets_zero] using this
      | succ i =>
          simp only [List.getD_cons_succ] at he
          simp only [List.foldl_cons]
          have hg : g.Wf := hwf g (List.mem_cons_self _ _)
          have := ih (g0.appendGraph g) (fun x hx => hwf x (List.mem_cons_of_mem _ hx))
            i (by simpa using hi) e he
          rw [Graph.appendGraph_nNodes g0 hg] at this
          rw [offsets_cons]
          have harith : g0.nNodes + g.nNodes + offsets gs i =
            g0.nNodes + (g.nNodes + offsets gs i) := by omega
          rw [← harith]
          exact this

/-- Node count of the fold of `append_graph` over well-formed graphs: the
total of all node counts. -/
theorem foldl_append_nNodes :
    ∀ (gs : List Graph) (g0 : Graph), (∀ g ∈ gs, g.Wf) →
      (gs.foldl Graph.appendGraph g0).nNodes = g0.nNodes + offsets gs gs.length := by
  intro gs
  induction gs with
  | nil => intro g0 _; simp [offsets]
  | cons g gs ih =>
      intro g0 hwf
      simp only [List.foldl_cons, List.length_cons]
      rw [ih (g0.appendGraph g) (fun x hx => hwf x (List.mem_cons_of_mem _ hx))]
      rw [Graph.appendGraph_nNodes g0 (hwf g (List.mem_cons_self _ _))]
      rw [offsets_cons]
      omega

/-- The inner graphs produced by one run of the pipeline (the second
element of the pair returned by `generate_inner_graphs` applied to the
outer graph of the run). -/
def innerGraphsOf {R : Type} (P : Pipeline R) (r : R) : List Graph :=
  (generateInnerGraphs P (P.outerGraphBuilder r).1 (P.outerGraphBuilder r).2).1

/-- Everything inserted after the composition step only appends edges, so
the composed base edges survive into the final graph. -/
theorem newInnerOuter_base_edges {R : Type} (P : Pipeline R) (r : R) :
    ((innerGraphsOf P r).foldl Graph.appendGraph default).edges ⊆
      (newInnerOuter P r).1.edges := by
  unfold newInnerOuter link addLinkingEdges innerGraphsOf
  dsimp only
  exact foldl_edges_mono (fun (g : Graph) (e : Nat × Nat) => g.newEdge e.1 e.2)
    (fun g e => Graph.newEdge_edges_mono g e.1 e.2) _ _

/-- The linking phase never shrinks the node count. -/
theorem newInnerOuter_base_nNodes {R : Type} (P : Pipeline R) (r : R) :
    ((innerGraphsOf P r).foldl Graph.appendGraph default).nNodes ≤
      (newInnerOuter P r).1.nNodes := by
  unfold newInnerOuter link addLinkingEdges innerGraphsOf
  dsimp only
  exact foldl_nNodes_le (fun (g : Graph) (e : Nat × Nat) => g.newEdge e.1 e.2)
    (fun g e => Graph.nNodes_le_newEdge g e.1 e.2) _ _

/-! Claim theorems. -/

/-- C3, counterexample: the claim says `new_edge(from, to)` always appends
one edge, so `n_edges()` increases by exactly one even when `(from, to)`
is already present.  On the graph with the single edge `(0, 1)` (built by
`new_edge(0, 1)` on the empty graph), a second `new_edge(0, 1)` leaves
the edge count at `1`, because `petgraph::Graph::update_edge` only
updates the weight of the existing edge. -/
theorem newEdge_duplicate_not_appended_cex :
    (0, 1) ∈ ((default : Graph).newEdge 0 1).edges ∧
    ¬ ((((default : Graph).newEdge 0 1).newEdge 0 1).nEdges =
        ((default : Graph).newEdge 0 1).nEdges + 1) := by
  decide

/-- C3, amended: `new_edge(from, to)` auto-extends the node range and then
appends the edge exactly when no edge `(from, to)` is present yet; when
an identical edge is already present, the edge list (and so `n_edges()`)
is unchanged. -/
theorem newEdge_append_or_keep (g : Graph) (fr tg : Nat) :
    ((fr, tg) ∉ g.edges →
      (g.newEdge fr tg).edges = g.edges ++ [(fr, tg)] ∧
      (g.newEdge fr tg).nEdges = g.nEdges + 1) ∧
    ((fr, tg) ∈ g.edges → (g.newEdge fr tg).edges = g.edges) := by
  constructor
  · intro hne
    constructor
    · rw [Graph.newEdge_edges, if_neg hne]
    · simp only [Graph.nEdges, Graph.newEdge_edges, if_neg hne]
      simp
  · intro hmem
    rw [Graph.newEdge_edges, if_pos hmem]

/-- C3, witness for the amended claim at concrete inputs: inserting
`(0, 1)` into the empty graph appends it; re-inserting it changes
nothing. -/
theorem newEdge_append_or_keep_witness :
    ((default : Graph).newEdge 0 1).edges = (default : Graph).edges ++ [(0, 1)] ∧
    (((default : Graph).newEdge 0 1).newEdge 0 1).edges =
      ((default : Graph).newEdge 0 1).edges :=
  ⟨((newEdge_append_or_keep default 0 1).1 (by decide)).1,
    (newEdge_append_or_keep ((default : Graph).newEdge 0 1) 0 1).2 (by decide)⟩

/-- C5: for any graph `g1` and any (petgraph-well-formed) graph `g2`,
`g1.append_graph(g2)` has exactly `|g1| + |g2|` nodes, every edge
`(s, t)` of `g2` appears as `(s + |g1|, t + |g1|)`, and `g1`'s edges are
unchanged, as the unchanged prefix of the edge list (same endpoints, same
insertion order). -/
theorem appendGraph_spec (g1 g2 : Graph) (hwf : g2.Wf) :
    (g1.appendGraph g2).nNodes = g1.nNodes + g2.nNodes ∧
    (∀ e ∈ g2.edges,
      (e.1 + g1.nNodes, e.2 + g1.nNodes) ∈ (g1.appendGraph g2).edges) ∧
    (∃ t, (g1.appendGraph g2).edges = g1.edges ++ t) := by
  exact ⟨Graph.appendGraph_nNodes g1 hwf,
    fun e he => Graph.appendGraph_mem g1 g2 e he,
    Graph.appendGraph_edges_extend g1 g2⟩

/-- C5, witness at a concrete input: appending the one-edge graph
`(1, 0)` to the one-edge graph `(0, 1)`. -/
theorem appendGraph_spec_witness :
    (((default : Graph).newEdge 0 1).appendGraph ((default : Graph).newEdge 1 0)).nNodes =
      ((default : Graph).newEdge 0 1).nNodes + ((default : Graph).newEdge 1 0).nNodes ∧
    (∀ e ∈ ((default : Graph).newEdge 1 0).edges,
      (e.1 + ((default : Graph).newEdge 0 1).nNodes,
        e.2 + ((default : Graph).newEdge 0 1).nNodes) ∈
        (((default : Graph).newEdge 0 1).appendGraph ((default : Graph).newEdge 1 0)).edges) ∧
    (∃ t, (((default : Graph).newEdge 0 1).appendGraph ((default : Graph).newEdge 1 0)).edges =
      ((default : Graph).newEdge 0 1).edges ++ t) :=
  appendGraph_spec ((default : Graph).newEdge 0 1) ((default : Graph).newEdge 1 0)
    (by decide)

/-- C6: on a well-formed graph whose node count `k` satisfies
`max(from, to) ≥ k`, `new_edge(from, to)` yields exactly
`max(from, to) + 1` nodes (all missing dense indices up to `max(from,to)`
are auto-created) and exactly one more edge. -/
theorem newEdge_extends_nodes_spec (g : Graph) (fr tg : Nat) (hwf : g.Wf)
    (hk : g.nNodes ≤ max fr tg) :
    (g.newEdge fr tg).nNodes = max fr tg + 1 ∧
    (g.newEdge fr tg).nEdges = g.nEdges + 1 := by
  have hne : (fr, tg) ∉ g.edges := by
    intro hmem
    have := hwf (fr, tg) hmem
    simp only at this
    omega
  constructor
  · rw [Graph.newEdge_nNodes]
    omega
  · simp only [Graph.nEdges, Graph.newEdge_edges, if_neg hne]
    simp

/-- C6, witness at a concrete input: `new_edge(2, 3)` on the empty graph
gives 4 nodes and 1 edge. -/
theorem newEdge_extends_nodes_spec_witness :
    ((default : Graph).newEdge 2 3).nNodes = max 2 3 + 1 ∧
    ((default : Graph).newEdge 2 3).nEdges = (default : Graph).nEdges + 1 :=
  newEdge_extends_nodes_spec default 2 3 (by decide) (by decide)

/-- C10: the invariant "every stored edge endpoint is strictly below
`n_nodes()`" holds for the empty graph and is preserved by `new_node`,
`new_edge` (which auto-creates missing endpoint nodes first) and
`append_graph`; consequently every pair yielded by `iter_edges()` of a
well-formed graph references existing nodes. -/
theorem graph_invariant_preserved :
    (default : Graph).Wf ∧
    (∀ g : Graph, g.Wf → g.newNode.Wf) ∧
    (∀ (g : Graph) (fr tg : Nat), g.Wf → (g.newEdge fr tg).Wf) ∧
    (∀ g h : Graph, g.Wf → (g.appendGraph h).Wf) ∧
    (∀ g : Graph, g.Wf →
      ∀ e ∈ g.iterEdges, e.1 < g.nNodes ∧ e.2 < g.nNodes) := by
  refine ⟨by decide, fun g hg => hg.newNode,
    fun g fr tg hg => hg.newEdge fr tg,
    fun g h hg => hg.appendGraph h,
    fun g hg e he => hg e he⟩

/-- C10, witness: the invariant facts instantiated on concrete graphs. -/
theorem graph_invariant_preserved_witness :
    ((default : Graph).newEdge 5 2).Wf ∧
    (((default : Graph).newEdge 0 1).appendGraph ((default : Graph).newEdge 1 0)).Wf :=
  ⟨graph_invariant_preserved.2.2.1 default 5 2 graph_invariant_preserved.1,
    graph_invariant_preserved.2.2.2.1 ((default : Graph).newEdge 0 1)
      ((default : Graph).newEdge 1 0)
      (graph_invariant_preserved.2.2.1 default 0 1 graph_invariant_preserved.1)⟩

/-! Helper lemmas about `mapM` over `Except`, used to settle the
parameter-parsing claims. -/

theorem mapM_except_cases {α β ε : Type} (f : α → Except ε β) :
    ∀ l : List α,
      (∃ r, l.mapM f = .ok r) ∨
      ∃ a ∈ l, ∃ e, f a = .error e ∧ l.mapM f = .error e := by
  intro l
  induction l with
  | nil => exact Or.inl ⟨[], rfl⟩
  | cons a l ih =>
      cases hf : f a with
      | error e =>
          refine Or.inr ⟨a, List.mem_cons_self _ _, e, hf, ?_⟩
          rw [List.mapM_cons, hf]
          rfl
      | ok b =>
          rcases ih with ⟨r, hr⟩ | ⟨x, hx, e, hxe, he⟩
          · refine Or.inl ⟨b :: r, ?_⟩
            rw [List.mapM_cons, hf, hr]
            rfl
          · refine Or.inr ⟨x, List.mem_cons_of_mem _ hx, e, hxe, ?_⟩
            rw [List.mapM_cons, hf, he]
            rfl

theorem mapM_except_ok_forall {α β ε : Type} (f : α → Except ε β) :
    ∀ (l : List α) (r : List β), l.mapM f = .ok r →
      ∀ a ∈ l, ∃ b, f a = .ok b := by
  intro l
  induction l with
  | nil => intro r _ a ha; cases ha
  | cons x l ih =>
      intro r h a ha
      rw [List.mapM_cons] at h
      cases hf : f x with
      | error e => rw [hf] at h; cases h
      | ok b =>
          rw [hf] at h
          cases hm : l.mapM f with
          | error e => rw [hm] at h; cases h
          | ok rest =>
              rcases List.mem_cons.mp ha with rfl | ha2
              · exact ⟨b, hf⟩
              · exact ih rest hm a ha2

theorem mapM_except_ok_getD {α β ε : Type} (f : α → Except ε β)
    (dA : α) (dB : β) :
    ∀ (l : List α) (r : List β), l.mapM f = .ok r →
      r.length = l.length ∧
      ∀ i, i < l.length → f (l.getD i dA) = .ok (r.getD i dB) := by
  intro l
  induction l with
  | nil =>
      intro r h
      rw [List.mapM_nil] at h
      cases h
      exact ⟨rfl, fun i hi => absurd hi (by simp)⟩
  | cons x l ih =>
      intro r h
      rw [List.mapM_cons] at h
      cases hf : f x with
      | error e => rw [hf] at h; cases h
      | ok b =>
          rw [hf] at h
          cases hm : l.mapM f with
          | error e => rw [hm] at h; cases h
          | ok rest =>
              rw [hm] at h
              cases h
              obtain ⟨hlen, hpos⟩ := ih rest hm
              refine ⟨by simpa using hlen, ?_⟩
              intro i hi
              cases i with
              | zero => simpa using hf
              | succ i =>
                  simp only [List.getD_cons_succ]
                  exact hpos i (by simpa using hi)

theorem zip_getD {α β : Type} (d1 : α) (d2 : β) :
    ∀ (l1 : List α) (l2 : List β) (i : Nat),
      i < l1.length → i < l2.length →
      (l1.zip l2).getD i (d1, d2) = (l1.getD i d1, l2.getD i d2) := by
  intro l1
  induction l1 with
  | nil => intro l2 i hi _; cases hi
  | cons x l1 ih =>
      intro l2 i hi1 hi2
      cases l2 with
      | nil => cases hi2
      | cons y l2 =>
          cases i with
          | zero => simp
          | succ i =>
              simp only [List.zip_cons_cons, List.getD_cons_succ]
              exact ih l2 i (by simpa using hi1) (by simpa using hi2)

/-- Every error raised by `ParameterType::parse` is a type error carrying
the offending token. -/
theorem parameterType_parse_error_shape (t : ParameterType) (tok : String)
    (e : GenError) (h : ParameterType.parse t tok = .error e) :
    e = .typeError tok := by
  cases t with
  | positiveInteger =>
      simp only [ParameterType.parse] at h
      cases hp : parseUsize tok with
      | none => rw [hp] at h; injection h with h2; exact h2.symm
      | some n => rw [hp] at h; cases h
  | probability =>
      simp only [ParameterType.parse] at h
      cases hp : parseF64AsRat tok with
      | none => rw [hp] at h; injection h with h2; exact h2.symm
      | some p =>
          rw [hp] at h
          dsimp only at h
          by_cases hr : 0 ≤ p ∧ p ≤ 1
          · rw [if_pos hr] at h; cases h
          · rw [if_neg hr] at h
            injection h with h2
            exact h2.symm

/-- C7: parameter parsing splits the input on `,` only when non-empty, so
the empty input parses exactly when the declared type list is empty; a
token count different from the declared type count is an arity error
carrying both counts; any failing token yields a type error; a
`Probability` token whose decimal value lies outside `[0, 1]` is a type
error; and a successful parse returns exactly one `ParameterValue` per
declared type, positionally matched against the tokens. -/
theorem parameterParser_parse_spec :
    (∀ types : List ParameterType,
      (∃ vs, ParameterParser.parse types "" = .ok vs) ↔ types = []) ∧
    (∀ (types : List ParameterType) (s : String),
      (splitParams s).length ≠ types.length →
      ParameterParser.parse types s =
        .error (.arityError types.length (splitParams s).length)) ∧
    (∀ (types : List ParameterType) (s : String),
      (splitParams s).length = types.length →
      (∃ p ∈ types.zip (splitParams s), ∃ e, ParameterType.parse p.1 p.2 = .error e) →
      ∃ tok, ParameterParser.parse types s = .error (.typeError tok)) ∧
    (∀ (tok : String) (q : ℚ), parseF64AsRat tok = some q → ¬ (0 ≤ q ∧ q ≤ 1) →
      ParameterType.parse .probability tok = .error (.typeError tok)) ∧
    (∀ (types : List ParameterType) (s : String) (vs : List ParameterValue),
      ParameterParser.parse types s = .ok vs →
      vs.length = types.length ∧
      ∀ i, i < types.length →
        ParameterType.parse (types.getD i .positiveInteger)
          ((splitParams s).getD i "") = .ok (vs.getD i (.positiveInteger 0))) := by
  have hparse : ∀ (types : List ParameterType) (s : String),
      ParameterParser.parse types s =
        if (splitParams s).length ≠ types.length then
          .error (.arityError types.length (splitParams s).length)
        else (types.zip (splitParams s)).mapM (fun p => ParameterType.parse p.1 p.2) :=
    fun types s => rfl
  refine ⟨?_, ?_, ?_, ?_, ?_⟩
  · intro types
    constructor
    · rintro ⟨vs, hvs⟩
      rw [hparse] at hvs
      cases types with
      | nil => rfl
      | cons t ts =>
          rw [if_pos (by simp [splitParams])] at hvs
          cases hvs
    · rintro rfl
      exact ⟨[], rfl⟩
  · intro types s hne
    rw [hparse, if_pos hne]
  · intro types s hlen hfail
    rw [hparse, if_neg (by omega)]
    rcases mapM_except_cases (fun p => ParameterType.parse p.1 p.2)
      (types.zip (splitParams s)) with ⟨r, hr⟩ | ⟨a, _, e, hae, he⟩
    · obtain ⟨p, hp, e, hpe⟩ := hfail
      obtain ⟨b, hb⟩ := mapM_except_ok_forall _ _ _ hr p hp
      rw [hb] at hpe
      cases hpe
    · refine ⟨a.2, ?_⟩
      rw [he, parameterType_parse_error_shape a.1 a.2 e hae]
  · intro tok q hq hout
    simp only [ParameterType.parse]
    rw [hq]
    simp only [if_neg hout]
  · intro types s vs hvs
    rw [hparse] at hvs
    by_cases hlen : (splitParams s).length ≠ types.length
    · rw [if_pos hlen] at hvs; cases hvs
    · rw [if_neg hlen] at hvs
      push_neg at hlen
      obtain ⟨hrl, hpos⟩ :=
        mapM_except_ok_getD (fun p => ParameterType.parse p.1 p.2)
          (ParameterType.positiveInteger, "") (ParameterValue.positiveInteger 0)
          (types.zip (splitParams s)) vs hvs
      have hzlen : (types.zip (splitParams s)).length = types.length := by
        simp [List.length_zip, hlen]
      refine ⟨by omega, ?_⟩
      intro i hi
      have := hpos i (by omega)
      rw [zip_getD _ _ types (splitParams s) i hi (by omega)] at this
      exact this

/-- C7, witness: the spec's three concrete examples, the empty-input
cases and an out-of-range probability, all obtained from the main
theorem at concrete inputs. -/
theorem parameterParser_parse_spec_witness :
    ParameterParser.parse [ParameterType.positiveInteger] "1,2" =
      .error (.arityError 1 2) ∧
    (∃ tok, ParameterParser.parse [ParameterType.probability] "1.5" =
      .error (.typeError tok)) ∧
    ParameterType.parse .probability "1.5" = .error (.typeError "1.5") ∧
    (∃ vs, ParameterParser.parse [] "" = .ok vs) := by
  refine ⟨?_, ?_, ?_, ?_⟩
  · exact parameterParser_parse_spec.2.1 [ParameterType.positiveInteger] "1,2"
      (by decide)
  · exact parameterParser_parse_spec.2.2.1 [ParameterType.probability] "1.5"
      (by decide)
      ⟨(ParameterType.probability, "1.5"), by decide,
        GenError.typeError "1.5", by decide⟩
  · exact parameterParser_parse_spec.2.2.2.1 "1.5" (mkRat 3 2) (by decide)
      (by decide)
  · exact (parameterParser_parse_spec.1 []).mpr rfl

/-- C8: registry resolution of `"name"` or `"name/p1,p2,..."` succeeds
only by exact match of the name part against the registered collection
(the first factory whose name equals the part before the first `/`),
delegates parameter parsing to the matched factory's declared parameter
types (parse errors pass through), then constructs the plugin instance;
when no registered name matches, the result is the not-found error
carrying the raw input string. -/
theorem namedFromStr_spec {T : Type} (collection : List (NamedFactory T))
    (s : String) :
    ((∀ f ∈ collection, f.name ≠ (splitOnceSlash s).1) →
      namedFromStr collection s = .error (.notFoundError s)) ∧
    (∀ f, collection.find? (fun f => f.name == (splitOnceSlash s).1) = some f →
      (∀ e, ParameterParser.parse f.expectedParameterTypes (splitOnceSlash s).2 =
          .error e → namedFromStr collection s = .error e) ∧
      (∀ vs, ParameterParser.parse f.expectedParameterTypes (splitOnceSlash s).2 =
          .ok vs → namedFromStr collection s = f.tryWithParams vs)) := by
  constructor
  · intro hnone
    have hfind : collection.find? (fun f => f.name == (splitOnceSlash s).1) = none := by
      rw [List.find?_eq_none]
      intro a ha
      simpa using hnone a ha
    unfold namedFromStr
    dsimp only
    rw [hfind]
  · intro f hf
    constructor
    · intro e he
      unfold namedFromStr
      dsimp only
      rw [hf]
      dsimp only
      rw [he]
    · intro vs hvs
      unfold namedFromStr
      dsimp only
      rw [hf]
      dsimp only
      rw [hvs]

/-- C8, witness: the three registry-resolution examples against a
registry holding the chain factory — an unknown name carries the raw
string, `"chain/3"` constructs the 3-node chain, `"chain"` (no
parameters) fails with the arity error. -/
theorem namedFromStr_spec_witness :
    namedFromStr [chainFactory] "doesnotexist/3" =
      .error (.notFoundError "doesnotexist/3") ∧
    namedFromStr [chainFactory] "chain/3" = .ok (chainGraph 3) ∧
    namedFromStr [chainFactory] "chain" = .error (.arityError 1 0) := by
  refine ⟨?_, ?_, ?_⟩
  · exact (namedFromStr_spec [chainFactory] "doesnotexist/3").1 (by decide)
  · exact ((namedFromStr_spec [chainFactory] "chain/3").2 chainFactory rfl).2
      [ParameterValue.positiveInteger 3] (by decide)
  · exact ((namedFromStr_spec [chainFactory] "chain").2 chainFactory rfl).1
      (.arityError 1 0) (by decide)

/-! Concrete pipelines used to evaluate the composition algorithm on the
spec's end-to-end example: outer graph `chain(2)`, inner graphs
`chain(3)`, and a linker that (like `FirstToFirstLinker`,
src/linkers/first_to_first.rs) ignores its arguments and returns one
fixed inter-graph edge.  The RNG model is a counter; the builders and
linker ignore randomness, as the chain generator and first-to-first
linker do. -/

/-- Counter RNG model: each draw returns the state and increments it. -/
def natRngModel : RngModel Nat :=
  { next := fun r => (r, r + 1), seedFromU64 := fun s => s }

/-- The end-to-end example pipeline: chain(2) outer, chain(3) inner,
first-to-first linker (`FirstToSecond(0, 0)`). -/
def chainPipeline : Pipeline Nat :=
  { rm := natRngModel
    outerGraphBuilder := fun r => (chainGraph 2, r)
    innerGraphBuilder := fun r => (chainGraph 3, r)
    linker := fun _ _ _ => [InterGraphEdge.firstToSecond 0 0] }

/-- The same pipeline with a linker returning `SecondToFirst(0, 1)`:
source local index `0` in the second inner graph, target local index `1`
in the first inner graph, following the field convention of
`MinIncomingLinker` and `RandomLinker` (which emit `SecondToFirst(n2, n1)`
with `n2` in the second graph and `n1` in the first). -/
def invChainPipeline : Pipeline Nat :=
  { rm := natRngModel
    outerGraphBuilder := fun r => (chainGraph 2, r)
    innerGraphBuilder := fun r => (chainGraph 3, r)
    linker := fun _ _ _ => [InterGraphEdge.secondToFirst 0 1] }

/-- C2, evaluation at the failing input: with offsets `[0, 3, 6]` and the
outer edge `(0, 1)`, the translation coded in `add_linking_edges` maps
`SecondToFirst(0, 1)` to the global edge `(1 + 3, 0 + 0) = (4, 0)`,
not to `(offset[b] + 0, offset[a] + 1) = (3, 1)` as the claim states,
because the code adds the first field to `offset[a]` and the second
field to `offset[b]`; the `FirstToSecond` half of the claim does hold.
Running the full pipeline with a `SecondToFirst(0, 1)` linker on the
chain(2)/chain(3) example shows the flipped global edge `(4, 0)` in the
output. -/
theorem translateInterEdge_secondToFirst_swapped :
    translateInterEdge [0, 3, 6] (0, 1) (InterGraphEdge.secondToFirst 0 1) =
      (4, 0) ∧
    translateInterEdge [0, 3, 6] (0, 1) (InterGraphEdge.secondToFirst 0 1) ≠
      (3 + 0, 0 + 1) ∧
    translateInterEdge [0, 3, 6] (0, 1) (InterGraphEdge.firstToSecond 0 1) =
      (0 + 0, 3 + 1) ∧
    (newInnerOuter invChainPipeline 0).1.edges =
      [(0, 1), (1, 2), (3, 4), (4, 5), (4, 0)] := by
  decide

/-- C4: the composed graph's index space is the ordered concatenation of
the inner graphs' index spaces — every edge `(s, t)` of inner graph `i`
appears in the output shifted into the contiguous block starting at the
prefix sum `offsets` of the node counts of inner graphs `0..i`, and the
output has at least the total of all inner node counts as nodes; on the
end-to-end example (outer chain(2), inner chain(3), first-to-first
linker) the output has 6 nodes and exactly the edges
`{(0,1), (1,2), (0,3), (3,4), (4,5)}`. -/
theorem newInnerOuter_composition_spec :
    (∀ (R : Type) (P : Pipeline R) (r : R),
      (∀ g ∈ innerGraphsOf P r, g.Wf) →
      (∀ i, i < (innerGraphsOf P r).length →
        ∀ e ∈ ((innerGraphsOf P r).getD i default).edges,
          (e.1 + offsets (innerGraphsOf P r) i,
            e.2 + offsets (innerGraphsOf P r) i) ∈
            (newInnerOuter P r).1.edges) ∧
      offsets (innerGraphsOf P r) (innerGraphsOf P r).length ≤
        (newInnerOuter P r).1.nNodes) ∧
    ((newInnerOuter chainPipeline 0).1.nNodes = 6 ∧
      (newInnerOuter chainPipeline 0).1.edges.Perm
        [(0, 1), (1, 2), (0, 3), (3, 4), (4, 5)]) := by
  constructor
  · intro R P r hwf
    constructor
    · intro i hi e he
      have hbase := foldl_append_mem (innerGraphsOf P r) default hwf i hi e he
      have hmono := newInnerOuter_base_edges P r
      apply hmono
      simpa [default_nNodes] using hbase
    · have hn := foldl_append_nNodes (innerGraphsOf P r) default hwf
      have hmono := newInnerOuter_base_nNodes P r
      rw [hn] at hmono
      simpa [default_nNodes] using hmono
  · exact ⟨by decide, by decide⟩

/-- C4, witness: the general block statement applied to the concrete
example pipeline — the edge `(0, 1)` of inner graph 1 appears shifted by
`offsets 1 = 3` in the output, and the output has at least `6` nodes. -/
theorem newInnerOuter_composition_spec_witness :
    ((0 : Nat) + offsets (innerGraphsOf chainPipeline 0) 1,
      (1 : Nat) + offsets (innerGraphsOf chainPipeline 0) 1) ∈
      (newInnerOuter chainPipeline 0).1.edges ∧
    offsets (innerGraphsOf chainPipeline 0) (innerGraphsOf chainPipeline 0).length ≤
      (newInnerOuter chainPipeline 0).1.nNodes :=
  ⟨(newInnerOuter_composition_spec.1 Nat chainPipeline 0 (by decide)).1
      1 (by decide) (0, 1) (by decide),
    (newInnerOuter_composition_spec.1 Nat chainPipeline 0 (by decide)).2⟩

/-- C1: for a fixed pipeline (seed, builders, linker) the result of
`new_inner_outer` does not depend on how the two parallel phases are
scheduled — any two runs whose inner-generation and linking task orders
are arbitrary permutations of the task ranges (any worker-thread count)
return the same graph, hence the same node count and the same multiset of
`(source, target)` edges.  This holds because one 64-bit seed per outer
node and one per outer edge is drawn from the shared RNG before the
parallel phase starts, and each task only uses a private RNG re-seeded
from its own seed. -/
theorem newInnerOuter_deterministic {R : Type} (P : Pipeline R) (r : R)
    (s1 s2 t1 t2 : List Nat)
    (h1 : s1.Perm (List.range (P.outerGraphBuilder r).1.nNodes))
    (h2 : s2.Perm (List.range (P.outerGraphBuilder r).1.edges.length))
    (h3 : t1.Perm (List.range (P.outerGraphBuilder r).1.nNodes))
    (h4 : t2.Perm (List.range (P.outerGraphBuilder r).1.edges.length)) :
    newInnerOuterSched P s1 s2 r = newInnerOuterSched P t1 t2 r ∧
    ∀ g1 g2, (newInnerOuterSched P s1 s2 r).1 = some g1 →
      (newInnerOuterSched P t1 t2 r).1 = some g2 →
      g1.nNodes = g2.nNodes ∧
      (g1.edges : Multiset (Nat × Nat)) = (g2.edges : Multiset (Nat × Nat)) := by
  have e1 := newInnerOuterSched_eq_seq P s1 s2 r h1 h2
  have e2 := newInnerOuterSched_eq_seq P t1 t2 r h3 h4
  refine ⟨e1.trans e2.symm, ?_⟩
  intro g1 g2 hg1 hg2
  rw [e1] at hg1
  rw [e2] at hg2
  have hx1 : (newInnerOuter P r).1 = g1 := Option.some.inj hg1
  have hx2 : (newInnerOuter P r).1 = g2 := Option.some.inj hg2
  rw [← hx1, ← hx2]
  exact ⟨rfl, rfl⟩

/-- C1, witness: the example pipeline run under the two inner-phase task
orders `[1, 0]` and `[0, 1]` gives identical results, with the node count
and edge multiset of the common output graph equal. -/
theorem newInnerOuter_deterministic_witness :
    newInnerOuterSched chainPipeline [1, 0] [0] 0 =
      newInnerOuterSched chainPipeline [0, 1] [0] 0 ∧
    ((⟨6, [(0, 1), (1, 2), (3, 4), (4, 5), (0, 3)]⟩ : Graph).nNodes =
        (⟨6, [(0, 1), (1, 2), (3, 4), (4, 5), (0, 3)]⟩ : Graph).nNodes ∧
      (((⟨6, [(0, 1), (1, 2), (3, 4), (4, 5), (0, 3)]⟩ : Graph).edges :
          Multiset (Nat × Nat)) =
        ((⟨6, [(0, 1), (1, 2), (3, 4), (4, 5), (0, 3)]⟩ : Graph).edges :
          Multiset (Nat × Nat)))) :=
  ⟨(newInnerOuter_deterministic chainPipeline 0 [1, 0] [0] [0, 1] [0]
      (by decide) (by decide) (by decide) (by decide)).1,
    (newInnerOuter_deterministic chainPipeline 0 [1, 0] [0] [0, 1] [0]
      (by decide) (by decide) (by decide) (by decide)).2
      ⟨6, [(0, 1), (1, 2), (3, 4), (4, 5), (0, 3)]⟩
      ⟨6, [(0, 1), (1, 2), (3, 4), (4, 5), (0, 3)]⟩
      (by decide) (by decide)⟩

/-- Predicate selecting the notifications received by listener `l`. -/
def isNotifyOf (l : Nat) : GenEvent → Bool
  | .notify l2 _ => l2 == l
  | _ => false

theorem range_filter_beq (l : Nat) :
    ∀ n, l < n → (List.range n).filter (fun i => i == l) = [l] := by
  intro n
  induction n with
  | zero => intro h; cases h
  | succ n ih =>
      intro h
      rw [List.range_succ, List.filter_append]
      by_cases hl : l = n
      · subst hl
        have h1 : (List.range l).filter (fun i => i == l) = [] := by
          rw [List.filter_eq_nil_iff]
          intro a ha
          have := List.mem_range.mp ha
          simp only [beq_iff_eq]
          omega
        rw [h1]
        simp
      · have hlt : l < n := by omega
        rw [ih hlt]
        have h2 : [n].filter (fun i => i == l) = [] := by
          simp [Ne.symm hl]
        rw [h2, List.append_nil]

theorem filter_notifyAll_self (l n : Nat) (s : InnerOuterGenerationStep)
    (h : l < n) :
    (notifyAll n s).filter (isNotifyOf l) = [GenEvent.notify l s] := by
  unfold notifyAll
  rw [List.filter_map]
  have hc : (isNotifyOf l ∘ fun i => GenEvent.notify i s) = fun i => i == l := by
    funext i
    simp [isNotifyOf, Function.comp]
  rw [hc, range_filter_beq l n h]
  rfl

theorem filter_map_not_notify {β : Type} (l : Nat) (mk : β → GenEvent)
    (hmk : ∀ b, isNotifyOf l (mk b) = false) (xs : List β) :
    (xs.map mk).filter (isNotifyOf l) = [] := by
  rw [List.filter_map]
  have hc : (isNotifyOf l ∘ mk) = fun _ => false := by
    funext b
    simp [Function.comp, hmk]
  rw [hc]
  simp

/-- C9: in one traced run of `new_inner_outer`, the event trace is
exactly: one `OuterGeneration` notification per listener (in registration
order) before the outer builder runs, then one `InnerGeneration`
notification per listener before any inner graph is built, then one
`Linking` notification per listener before any linker call; consequently
every registered listener is invoked synchronously exactly three times,
in the order `OuterGeneration`, `InnerGeneration`, `Linking`.  The traced
run returns the same value as the untraced pipeline. -/
theorem generation_listener_trace {R : Type} (nListeners : Nat)
    (P : Pipeline R) (s1 s2 : List Nat) (r : R) :
    (newInnerOuterTr nListeners P s1 s2 r).1 = newInnerOuter P r ∧
    (newInnerOuterTr nListeners P s1 s2 r).2 =
      notifyAll nListeners .outerGeneration ++ [GenEvent.outerBuilt] ++
        (notifyAll nListeners .innerGeneration ++ s1.map GenEvent.innerBuilt) ++
        (notifyAll nListeners .linking ++ s2.map GenEvent.linkerCalled) ∧
    (∀ l, l < nListeners →
      (newInnerOuterTr nListeners P s1 s2 r).2.filter (isNotifyOf l) =
        [GenEvent.notify l .outerGeneration, GenEvent.notify l .innerGeneration,
          GenEvent.notify l .linking]) := by
  have htr : (newInnerOuterTr nListeners P s1 s2 r).2 =
      notifyAll nListeners .outerGeneration ++ [GenEvent.outerBuilt] ++
        (notifyAll nListeners .innerGeneration ++ s1.map GenEvent.innerBuilt) ++
        (notifyAll nListeners .linking ++ s2.map GenEvent.linkerCalled) := by
    simp [newInnerOuterTr, generateOuterGraphTr, generateInnerGraphsTr, linkTr,
      List.append_assoc]
  refine ⟨rfl, htr, ?_⟩
  intro l hl
  rw [htr]
  simp only [List.filter_append]
  rw [filter_notifyAll_self l nListeners _ hl,
    filter_notifyAll_self l nListeners _ hl,
    filter_notifyAll_self l nListeners _ hl,
    filter_map_not_notify l GenEvent.innerBuilt (fun b => rfl) s1,
    filter_map_not_notify l GenEvent.linkerCalled (fun b => rfl) s2]
  rfl

/-- C9, witness: one listener, the example pipeline, task orders `[0, 1]`
and `[0]` — listener 0's filtered trace is the three notifications in
pipeline order. -/
theorem generation_listener_trace_witness :
    (newInnerOuterTr 1 chainPipeline [0, 1] [0] 0).2.filter (isNotifyOf 0) =
      [GenEvent.notify 0 .outerGeneration, GenEvent.notify 0 .innerGeneration,
        GenEvent.notify 0 .linking] :=
  (generation_listener_trace 1 chainPipeline [0, 1] [0] 0).2.2 0 (by decide)

end G2io
